import Mathlib

set_option autoImplicit false

/-!
Verification of the core of `dotnet-test-visualizer`: the CamelCase scanner
(`camelcase` package), the sentence formatter (`words` package) and the xUnit
name decoder plus hierarchy builder (`xunit` package).

Go strings are byte sequences and the scanner indexes them byte by byte
(`rune(r.input[r.pos])` reads a single byte), so a Go string is modelled as a
`List Nat` of byte values.  `float32` fields (`time` attributes) are only ever
copied by the modelled code, never computed with, so they are represented
opaquely by their bit patterns as naturals.
-/

/-- Go strings are byte sequences; we model them as lists of byte values. -/
abbrev GoStr := List Nat

/-- Byte list of an ASCII string literal.  All concrete inputs used in this
development are ASCII, where code points and UTF-8 bytes coincide. -/
def str (s : String) : GoStr := s.data.map (fun c => c.toNat)

namespace camelcase

/-- `unicode.IsUpper` restricted to the values a single Go byte can take
(0..255): the Latin-1 uppercase letters are `A`..`Z` (65..90) and
`À`..`Þ` (192..222) excluding `×` (215). -/
def isUpper (b : Nat) : Bool :=
  (65 ≤ b && b ≤ 90) || (192 ≤ b && b ≤ 222 && b != 215)

/-- Go slice expression `s[a:b]`. -/
def substr (s : GoStr) (a b : Nat) : GoStr := (s.take b).drop a

/-- Go byte indexing `s[pos]`.  Total model; the checked model below
(`readWordC` etc.) proves that the source only indexes in bounds. -/
def byteAt (s : GoStr) (pos : Nat) : Nat := s.getD pos 0

/-- `rdr.isNoSplitWord`: some entry of `NoSplit` has the substring read so far
(including the byte under the cursor, `input[sIdx:pos+1]`) as a prefix.
In the source the comparison is `strings.HasPrefix(got, want)` with `got`
ranging over `NoSplit` and `want` the current substring. -/
def isNoSplitWord (ns : List GoStr) (input : GoStr) (sIdx pos : Nat) : Bool :=
  ns.any (fun w => (substr input sIdx (pos + 1)).isPrefixOf w)

/-- The uppercase-led loop of `rdr.readWord`: advance while the cursor is in
bounds and the current byte is uppercase or the word so far is protected by
`NoSplit`.  The loop advances one byte per iteration, so any fuel of at least
`input.length - pos` computes the true exit position (shown by
`upperLoopC_eq` below). -/
def upperLoop (ns : List GoStr) (input : GoStr) (sIdx : Nat) :
    Nat → Nat → Nat
  | 0, pos => pos
  | fuel + 1, pos =>
    if pos < input.length ∧
        (isUpper (byteAt input pos) || isNoSplitWord ns input sIdx pos) then
      upperLoop ns input sIdx fuel (pos + 1)
    else pos

/-- The lowercase-led loop of `rdr.readWord`: advance while in bounds and the
current byte is not uppercase or the word so far is protected by `NoSplit`. -/
def lowerLoop (ns : List GoStr) (input : GoStr) (sIdx : Nat) :
    Nat → Nat → Nat
  | 0, pos => pos
  | fuel + 1, pos =>
    if pos < input.length ∧
        (!(isUpper (byteAt input pos)) || isNoSplitWord ns input sIdx pos) then
      lowerLoop ns input sIdx fuel (pos + 1)
    else pos

/-- End position of the uppercase branch of `readWord`: the loop's exit
position, backed up by one (`r.unreadRune()`) when not at end of input.  The
word starts at `sIdx` and the first `readRune` has put the cursor at
`sIdx + 1`; fuel `input.length + 1` exceeds the at most `input.length`
remaining iterations (certified by `upperLoopC_eq`). -/
def upperEnd (ns : List GoStr) (input : GoStr) (sIdx : Nat) : Nat :=
  let p2 := upperLoop ns input sIdx (input.length + 1) (sIdx + 1)
  if p2 < input.length then p2 - 1 else p2

/-- End position of the lowercase branch of `readWord`: the loop's exit
position (no back-up in this branch). -/
def lowerEnd (ns : List GoStr) (input : GoStr) (sIdx : Nat) : Nat :=
  lowerLoop ns input sIdx (input.length + 1) (sIdx + 1)

/-- `rdr.readWord`: returns the word starting at `pos` together with the new
reader position.  `r.readRune()` only advances the cursor as far as control
flow is concerned (the stored `rdRune` is never consulted), so it is modelled
as `pos + 1`; the branch test is Go's short-circuit
`r.pos < len(r.input) && unicode.IsUpper(r.peekRune())`. -/
def readWord (ns : List GoStr) (input : GoStr) (pos : Nat) : GoStr × Nat :=
  if pos + 1 < input.length ∧ isUpper (byteAt input (pos + 1)) then
    (substr input pos (upperEnd ns input pos), upperEnd ns input pos)
  else
    (substr input pos (lowerEnd ns input pos), lowerEnd ns input pos)

/-- `utf8.ValidString` on a byte sequence: shortest-form UTF-8 encodings of
code points U+0000..U+10FFFF excluding the surrogate range. -/
def contByte (b : Nat) : Bool := 128 ≤ b && b ≤ 191

/-- See `contByte`; this mirrors Go's `utf8.ValidString` acceptance table. -/
def validUtf8 : List Nat → Bool
  | [] => true
  | b :: rest =>
    if b ≤ 127 then validUtf8 rest
    else if b ≤ 193 then false
    else if b ≤ 223 then
      match rest with
      | c1 :: r => contByte c1 && validUtf8 r
      | [] => false
    else if b ≤ 239 then
      match rest with
      | c1 :: c2 :: r =>
        (if b = 224 then 160 ≤ c1 && c1 ≤ 191
         else if b = 237 then 128 ≤ c1 && c1 ≤ 159
         else contByte c1) && contByte c2 && validUtf8 r
      | _ => false
    else if b ≤ 244 then
      match rest with
      | c1 :: c2 :: c3 :: r =>
        (if b = 240 then 144 ≤ c1 && c1 ≤ 191
         else if b = 244 then 128 ≤ c1 && c1 ≤ 143
         else contByte c1) && contByte c2 && contByte c3 && validUtf8 r
      | _ => false
    else false

/-- The word-collecting loop of `Split`.  Each `readWord` strictly advances
the cursor (`readWord_snd_gt` below), so fuel `input.length` is enough; the
checked model (`SplitC`) certifies this. -/
def splitLoop (ns : List GoStr) (input : GoStr) : Nat → Nat → List GoStr
  | 0, _ => []
  | fuel + 1, pos =>
    if pos < input.length then
      let r := readWord ns input pos
      r.1 :: splitLoop ns input fuel r.2
    else []

/-- `camelcase.Split`: the different words of `v`; a single-element slice when
`v` is empty or not valid UTF-8. -/
def Split (ns : List GoStr) (v : GoStr) : List GoStr :=
  if !(validUtf8 v) || v.length = 0 then [v]
  else splitLoop ns v v.length 0

/-!
Checked model: the same scanner with every byte access and slice bound
verified and with an explicit iteration budget.  `none` marks an access Go
would panic on (`rdr.readRune` reads `r.input[r.pos]` whenever
`pos ≤ len(input)`, so the out-of-range read happens exactly at
`pos == len`), or an exhausted budget.  `SplitC_eq_Split` proves the checked
scanner returns `some` of the total model's answer on every input.
-/

/-- Checked `rdr.readRune`: Go's guard lets `pos > len` through (storing rune
0 without reading) but `pos == len` reaches the out-of-range index
`r.input[r.pos]`; `none` marks that panic. -/
def readRuneC (input : GoStr) (pos : Nat) : Option Nat :=
  if pos > input.length then some (pos + 1)
  else if pos < input.length then some (pos + 1)
  else none

/-- Checked Go slice `s[a:b]`: panics unless `a ≤ b ≤ len(s)`. -/
def substrC (s : GoStr) (a b : Nat) : Option GoStr :=
  if a ≤ b ∧ b ≤ s.length then some (substr s a b) else none

/-- Checked uppercase loop of `readWord`; the peek is guarded by the
short-circuit `pos < len`, the `isNoSplitWord` slice bound is verified. -/
def upperLoopC (ns : List GoStr) (input : GoStr) (sIdx : Nat) :
    Nat → Nat → Option Nat
  | 0, _ => none
  | fuel + 1, pos =>
    if pos < input.length then
      match substrC input sIdx (pos + 1) with
      | none => none
      | some w =>
        if isUpper (byteAt input pos) || ns.any (fun e => w.isPrefixOf e) then
          match readRuneC input pos with
          | none => none
          | some p => upperLoopC ns input sIdx fuel p
        else some pos
    else some pos

/-- Checked lowercase loop of `readWord`. -/
def lowerLoopC (ns : List GoStr) (input : GoStr) (sIdx : Nat) :
    Nat → Nat → Option Nat
  | 0, _ => none
  | fuel + 1, pos =>
    if pos < input.length then
      match substrC input sIdx (pos + 1) with
      | none => none
      | some w =>
        if !(isUpper (byteAt input pos)) || ns.any (fun e => w.isPrefixOf e) then
          match readRuneC input pos with
          | none => none
          | some p => lowerLoopC ns input sIdx fuel p
        else some pos
    else some pos

/-- Checked `upperEnd`. -/
def upperEndC (ns : List GoStr) (input : GoStr) (sIdx : Nat) : Option Nat :=
  match upperLoopC ns input sIdx (input.length + 1) (sIdx + 1) with
  | none => none
  | some p2 => some (if p2 < input.length then p2 - 1 else p2)

/-- Checked `lowerEnd`. -/
def lowerEndC (ns : List GoStr) (input : GoStr) (sIdx : Nat) : Option Nat :=
  lowerLoopC ns input sIdx (input.length + 1) (sIdx + 1)

/-- Checked `rdr.readWord`: the initial unguarded `readRune`, the
short-circuit branch test, the loop, and the final slice. -/
def readWordC (ns : List GoStr) (input : GoStr) (pos : Nat) :
    Option (GoStr × Nat) :=
  match readRuneC input pos with
  | none => none
  | some p1 =>
    if p1 < input.length ∧ isUpper (byteAt input p1) then
      match upperEndC ns input pos with
      | none => none
      | some p3 =>
        match substrC input pos p3 with
        | none => none
        | some w => some (w, p3)
    else
      match lowerEndC ns input pos with
      | none => none
      | some p2 =>
        match substrC input pos p2 with
        | none => none
        | some w => some (w, p2)

/-- Checked word-collecting loop of `Split`. -/
def splitLoopC (ns : List GoStr) (input : GoStr) :
    Nat → Nat → Option (List GoStr)
  | 0, _ => none
  | fuel + 1, pos =>
    if pos < input.length then
      match readWordC ns input pos with
      | none => none
      | some r =>
        match splitLoopC ns input fuel r.2 with
        | none => none
        | some rest => some (r.1 :: rest)
    else some []

/-- Checked `camelcase.Split`. -/
def SplitC (ns : List GoStr) (v : GoStr) : Option (List GoStr) :=
  if !(validUtf8 v) || v.length = 0 then some [v]
  else splitLoopC ns v (v.length + 1) 0

end camelcase

namespace words

/-- `strings.ToLower` on a single byte.  Go lower-cases Unicode-aware after
UTF-8 decoding; the modelled code only ever lower-cases ASCII identifier
segments, where this byte map coincides with Go's behaviour. -/
def toLowerByte (b : Nat) : Nat := if 65 ≤ b ∧ b ≤ 90 then b + 32 else b

/-- `strings.ToLower` over a whole string. -/
def toLowerStr (s : GoStr) : GoStr := s.map toLowerByte

/-- `strings.Join(ws, " ")`: words joined by a single space (byte 32). -/
def joinSpace : List GoStr → GoStr
  | [] => []
  | w :: ws => w ++ ws.flatMap (fun x => 32 :: x)

/-- The word loop of `words.ToSentence`: the first word verbatim, every later
word lower-cased unless it is an exact member of `NoTransform`. -/
def toSentenceWords (nt : List GoStr) : List GoStr → List GoStr
  | [] => []
  | w :: ws => w :: ws.map (fun x => if nt.contains x then x else toLowerStr x)

/-- `words.ToSentence` with the `NoTransform` configuration made explicit. -/
def ToSentence (nt : List GoStr) (v : List GoStr) : GoStr :=
  joinSpace (toSentenceWords nt v)

end words

namespace xunit

/-- The inline sentence-casing loop shared by `test.friendlyName` and
`test.groups`: index 0 verbatim, every later word lower-cased.  Unlike
`words.ToSentence` it consults no `NoTransform` set. -/
def friendlyWords : List GoStr → List GoStr
  | [] => []
  | w :: ws => w :: ws.map words.toLowerStr

/-- `strings.Split(s, sep)` for a one-byte separator: the chunks between
occurrences of the byte (`[""]` for the empty string). -/
def splitOnByte (b : Nat) : GoStr → List GoStr
  | [] => [[]]
  | c :: rest =>
    match splitOnByte b rest with
    | [] => [[c]]
    | s :: ss => if c = b then [] :: s :: ss else (c :: s) :: ss

/-- `s[strings.LastIndex(s, sep)+1:]` for a one-byte separator: the suffix
after the last occurrence of the byte, the whole string when it is absent
(`LastIndex` then yields -1 and the slice starts at 0). -/
def afterLast (b : Nat) : GoStr → GoStr
  | [] => []
  | c :: rest =>
    if b ∈ rest then afterLast b rest
    else if c = b then rest
    else c :: afterLast b rest

/-- A single trait name/value pair (xml `trait`). -/
structure Trait where
  name : GoStr
  value : GoStr
deriving DecidableEq

/-- xml `test` element; only the fields consulted by the name decoder and
hierarchy builder are modelled (id, method, source info, failure, output,
reason and warnings are never read by them). -/
structure GoTest where
  name : GoStr
  result : GoStr
  time : Nat
  traits : List Trait
deriving DecidableEq

/-- xml `collection` element (only its tests are consulted). -/
structure Collection where
  tests : List GoTest
deriving DecidableEq

/-- xml `assembly` element, restricted to the fields `readResult` copies and
the collections the builder walks. -/
structure GoAssembly where
  fullName : GoStr
  errorCount : Int
  passedCount : Int
  failedCount : Int
  notRunCount : Int
  total : Int
  runDate : GoStr
  runTime : GoStr
  time : Nat
  timeRTF : GoStr
  collections : List Collection
deriving DecidableEq

/-- `xunit.TestCase`; `groups` is the internal field. -/
structure TestCase where
  name : GoStr
  result : GoStr
  time : Nat
  groups : List GoStr
deriving DecidableEq

/-- `xunit.TestGroup`: a named node with its tests and subgroups. -/
inductive TestGroup where
  | mk (name : GoStr) (tests : List TestCase) (groups : List TestGroup)

/-- The `Name` field of a `TestGroup`. -/
def TestGroup.name : TestGroup → GoStr
  | .mk n _ _ => n

/-- The `Tests` field of a `TestGroup`. -/
def TestGroup.tests : TestGroup → List TestCase
  | .mk _ ts _ => ts

/-- The `Groups` field of a `TestGroup`. -/
def TestGroup.groups : TestGroup → List TestGroup
  | .mk _ _ gs => gs

/-- `test.hasDisplayName`: the name contains a space (byte 32). -/
def hasDisplayName (t : GoTest) : Bool := t.name.contains 32

/-- `test.isNested`: no display name and the name contains `+` (byte 43). -/
def isNested (t : GoTest) : Bool := !(hasDisplayName t) && t.name.contains 43

/-- `test.friendlyName`: a display name is returned as is; otherwise the part
after the last `.` is CamelCase-split and sentence-cased inline. -/
def friendlyName (ns : List GoStr) (t : GoTest) : GoStr :=
  if hasDisplayName t then t.name
  else words.joinSpace (friendlyWords (camelcase.Split ns (afterLast 46 t.name)))

/-- `test.groups`: for nested tests, the `+`-chunks of the name give the path;
the first chunk contributes its part after the last `.`, the last chunk its
part before the first `.` (`strings.Split(chunk, ".")[0]`), and each element
is CamelCase-split and sentence-cased inline. -/
def testGroups (ns : List GoStr) (t : GoTest) : List GoStr :=
  if !(isNested t) then []
  else
    let chunks := splitOnByte 43 t.name
    let parts := afterLast 46 (chunks.headD []) ::
      ((chunks.drop 1).dropLast ++ [(splitOnByte 46 (chunks.getLastD [])).headD []])
    parts.map (fun p => words.joinSpace (friendlyWords (camelcase.Split ns p)))

/-- `trait.friendlyName`: the verbatim concatenation `name - value`. -/
def traitFriendlyName (tr : Trait) : GoStr := tr.name ++ str " - " ++ tr.value

/-- The `TestCase` built in `assembly.uniqueTraits`:
`TestCase{Name: t.friendlyName(), groups: t.groups(), Result: t.Result,
Time: t.Time}`. -/
def toTestCase (ns : List GoStr) (t : GoTest) : TestCase :=
  ⟨friendlyName ns t, t.result, t.time, testGroups ns t⟩

/-- The record appended to a node's test list in `assembly.groupTests`:
`TestCase{Name: tc.Name, Result: tc.Result, Time: tc.Time}` (groups zero). -/
def strip (tc : TestCase) : TestCase := ⟨tc.name, tc.result, tc.time, []⟩

/-- Modelled from the spec: the repository's `maps` package (`maps.Keys`) is
not among the sources, and the spec fixes the trait iteration order as
"first-seen order" ("Compute the set of distinct trait labels across all
tests, in first-seen order"), so Go's `assembly.testMap` together with
`maps.Keys` is modelled as an insertion-ordered association list.
`amInsert m k v` is `m[k] = append(m[k], v)`. -/
def amInsert : List (GoStr × List TestCase) → GoStr → TestCase →
    List (GoStr × List TestCase)
  | [], k, v => [(k, [v])]
  | (a, vs) :: rest, k, v =>
    if a = k then (a, vs ++ [v]) :: rest else (a, vs) :: amInsert rest k v

/-- Go map indexing `testMap[k]` (zero value, the empty list, when absent);
the association lists built by `amInsert` from `[]` have distinct keys, so
first match is the match. -/
def lookupAM : List (GoStr × List TestCase) → GoStr → List TestCase
  | [], _ => []
  | (a, vs) :: rest, k => if a = k then vs else lookupAM rest k

/-- The per-test body of the map-building loop in `assembly.uniqueTraits`:
record the test under the empty label when it declares no traits, and under
the friendly label of each of its traits. -/
def recordTest (ns : List GoStr) (m : List (GoStr × List TestCase))
    (t : GoTest) : List (GoStr × List TestCase) :=
  let tCase := toTestCase ns t
  let m1 := if t.traits.isEmpty then amInsert m [] tCase else m
  t.traits.foldl (fun m2 tr => amInsert m2 (traitFriendlyName tr) tCase) m1

/-- The per-collection loop of `assembly.uniqueTraits`. -/
def recordCollection (ns : List GoStr) (m : List (GoStr × List TestCase))
    (c : Collection) : List (GoStr × List TestCase) :=
  c.tests.foldl (recordTest ns) m

/-- The map-building loop of `assembly.uniqueTraits`. -/
def buildTestMap (ns : List GoStr) (asm : GoAssembly) :
    List (GoStr × List TestCase) :=
  asm.collections.foldl (recordCollection ns) []

/-- `assembly.uniqueTraits`: the distinct trait labels in first-seen order
(the keys of the test map). -/
def uniqueTraits (ns : List GoStr) (asm : GoAssembly) : List GoStr :=
  (buildTestMap ns asm).map Prod.fst

/-- `assembly.hasTests`. -/
def hasTests (asm : GoAssembly) : Bool :=
  asm.collections.any (fun c => !c.tests.isEmpty)

/-- One step of the child search in `assembly.groupTests`: linear scan of the
children for a label match (first match wins); when absent a new node
`&TestGroup{Name: nn}` is appended at the end.  The matched or created child
is replaced by `f` applied to it (the continuation of the walk). -/
def updateChild : List TestGroup → GoStr → (TestGroup → TestGroup) → List TestGroup
  | [], nn, f => [f (.mk nn [] [])]
  | c :: cs, nn, f =>
    if c.name = nn then f c :: cs else c :: updateChild cs nn f

/-- The walk over `tc.groups` in `assembly.groupTests`: descend label by
label, reusing or creating children, and append the test record at the final
node of the path (at the root itself when the path is empty). -/
def insertPath : TestGroup → List GoStr → TestCase → TestGroup
  | .mk n ts gs, [], tc => .mk n (ts ++ [tc]) gs
  | .mk n ts gs, nn :: rest, tc =>
    .mk n ts (updateChild gs nn (fun c => insertPath c rest tc))

/-- The per-trait loop of `assembly.groupTests`: insert each of the trait's
test cases, in encounter order, into that trait's root. -/
def groupTestsOne (root : TestGroup) (tcs : List TestCase) : TestGroup :=
  tcs.foldl (fun g tc => insertPath g tc.groups (strip tc)) root

/-- `assembly.groupTests`: one root per unique trait, in first-seen order
(the keys of the test map have no duplicates, so iterating `uniqueTraits` and
indexing `testMap[trait]` is iterating the association list's entries). -/
def groupTests (ns : List GoStr) (asm : GoAssembly) : List TestGroup :=
  if !(hasTests asm) then []
  else (buildTestMap ns asm).map (fun e => groupTestsOne (.mk e.1 [] []) e.2)

/-- The decoded top-level `result` value, restricted to the fields
`readResult` copies. -/
structure XmlResult where
  computer : GoStr
  user : GoStr
  startRTF : GoStr
  finishRTF : GoStr
  timestamp : GoStr
  assemblies : List GoAssembly
deriving DecidableEq

/-- The zero value of `result` (`var res result`). -/
def zeroResult : XmlResult := ⟨[], [], [], [], [], []⟩

/-- Abstract outcome of the input boundary in `unmarshal`: reading the bytes
fails (`io.ReadAll` error), or the XML decoder rejects them with an error
value, or decoding succeeds with a `result`. -/
inductive ReadOutcome where
  | readErr
  | decodeErr (e : GoStr)
  | ok (r : XmlResult)

/-- `unmarshal`: when `io.ReadAll` fails the decode step is skipped and the
still zero-valued `res` is returned with a nil error; a decode error is
returned unchanged with a zero `result`; otherwise the decoded value with a
nil error. -/
def unmarshal (o : ReadOutcome) : XmlResult × Option GoStr :=
  match o with
  | .readErr => (zeroResult, none)
  | .decodeErr e => (zeroResult, some e)
  | .ok r => (r, none)

/-- `xunit.Assembly` (public output type). -/
structure Assembly where
  name : GoStr
  errorCount : Int
  passedCount : Int
  failedCount : Int
  notRunCount : Int
  totalCount : Int
  runDate : GoStr
  runTime : GoStr
  time : Nat
  timeRTF : GoStr
  testGroups : List TestGroup

/-- `xunit.TestRun` (public output type). -/
structure TestRun where
  computer : GoStr
  user : GoStr
  startTimeRTF : GoStr
  endTimeRTF : GoStr
  timestamp : GoStr
  assemblies : List Assembly

/-- `assembly.name`: the path component after the last `/` when the full name
contains one, otherwise after the last `\`. -/
def assemblyName (asm : GoAssembly) : GoStr :=
  if asm.fullName.contains 47 then afterLast 47 asm.fullName
  else afterLast 92 asm.fullName

/-- `readResult`. -/
def readResult (ns : List GoStr) (r : XmlResult) : TestRun :=
  { computer := r.computer
    user := r.user
    startTimeRTF := r.startRTF
    endTimeRTF := r.finishRTF
    timestamp := r.timestamp
    assemblies := r.assemblies.map (fun a =>
      { name := assemblyName a
        errorCount := a.errorCount
        passedCount := a.passedCount
        failedCount := a.failedCount
        notRunCount := a.notRunCount
        totalCount := a.total
        runDate := a.runDate
        runTime := a.runTime
        time := a.time
        timeRTF := a.timeRTF
        testGroups := groupTests ns a }) }

/-- The zero value `TestRun{}` (the model does not distinguish Go's nil slice
from an empty slice). -/
def zeroTestRun : TestRun := ⟨[], [], [], [], [], []⟩

/-- `xunit.Load` with the `NoSplit` configuration made explicit. -/
def Load (ns : List GoStr) (o : ReadOutcome) : TestRun × Option GoStr :=
  let u := unmarshal o
  match u.2 with
  | some e => (zeroTestRun, some e)
  | none => (readResult ns u.1, none)

mutual

/-- Within every node of the tree, no two children share a label, recursively
(spec: "within one parent, no two children share the same label"). -/
def treeNodup : TestGroup → Bool
  | .mk _ _ gs => (gs.map TestGroup.name).Nodup && forestNodup gs

/-- `treeNodup` over a list of trees. -/
def forestNodup : List TestGroup → Bool
  | [] => true
  | g :: gs => treeNodup g && forestNodup gs

end

mutual

/-- The number of occurrences of a test record anywhere in a tree. -/
def countTC : TestGroup → TestCase → Nat
  | .mk _ ts gs, x => ts.count x + countForest gs x

/-- `countTC` summed over a list of trees. -/
def countForest : List TestGroup → TestCase → Nat
  | [], _ => 0
  | g :: gs, x => countTC g x + countForest gs x

end

/-- The trait labels one test contributes to the grouping: the friendly label
of each declared trait, or the empty label when it declares none. -/
def testLabels (t : GoTest) : List GoStr :=
  if t.traits.isEmpty then [[]] else t.traits.map traitFriendlyName

/-- The (trait label, test case) pairs one test contributes, in order. -/
def testPairs (ns : List GoStr) (t : GoTest) : List (GoStr × TestCase) :=
  (testLabels t).map (fun l => (l, toTestCase ns t))

/-- Every (trait label, test case) pair of an assembly, in encounter order:
the reference stream against which the builder's insertion-ordered map is
characterised. -/
def allPairs (ns : List GoStr) (asm : GoAssembly) : List (GoStr × TestCase) :=
  asm.collections.flatMap (fun c => c.tests.flatMap (testPairs ns))

/-- First occurrences, in order, of the elements of a list that are not in
`seen` ("first-seen order" in the spec). -/
def dedupNew (seen : List GoStr) : List GoStr → List GoStr
  | [] => []
  | x :: xs => if x ∈ seen then dedupNew seen xs else x :: dedupNew (seen ++ [x]) xs

/-- The distinct elements of a list in first-seen order. -/
def dedupFirst (l : List GoStr) : List GoStr := dedupNew [] l

/-- Folding a stream of (key, value) pairs into the insertion-ordered map. -/
def foldAM (m : List (GoStr × List TestCase)) (ps : List (GoStr × TestCase)) :
    List (GoStr × List TestCase) :=
  ps.foldl (fun m p => amInsert m p.1 p.2) m

/-- An assembly holding a single collection with a single test. -/
def singleTestAsm (t : GoTest) : GoAssembly :=
  ⟨[], 0, 0, 0, 0, 0, [], [], 0, [], [⟨[t]⟩]⟩

end xunit

namespace xunit

/-- The Hierarchy Builder scenario assembly (spec, section 8): two nested
tests sharing the path prefix `Test class / Method` and diverging at
`Scenario` vs `Scenario2`, no traits. -/
def divergingAsm : GoAssembly :=
  ⟨str "app.dll", 0, 0, 0, 0, 0, [], [], 0, [],
   [⟨[⟨str "NS1.Class.SubClass.TestClass+Method+Scenario+SubScenario.Result",
       str "Pass", 0, []⟩,
     ⟨str "NS1.Class.SubClass.TestClass+Method+Scenario2+SubScenario.Result",
       str "Pass", 0, []⟩]⟩]⟩

/-- The merged tree the scenario must produce: a single shared
`Test class → Method` chain and two distinct children at the divergence. -/
def divergingTree : TestGroup :=
  .mk [] []
    [.mk (str "Test class") []
      [.mk (str "Method") []
        [.mk (str "Scenario") []
          [.mk (str "Sub scenario") [⟨str "Result", str "Pass", 0, []⟩] []],
         .mk (str "Scenario2") []
          [.mk (str "Sub scenario") [⟨str "Result", str "Pass", 0, []⟩] []]]]]

/-- A test declared twice under the identical trait `(Cat, X)`: two traits
with the same friendly label. -/
def dupTraitTest : GoTest :=
  ⟨str "NS0.Sample.CheckResult", str "Pass", 7,
   [⟨str "Cat", str "X"⟩, ⟨str "Cat", str "X"⟩]⟩

/-- A test under two distinct traits. -/
def twoTraitTest : GoTest :=
  ⟨str "NS0.Sample.CheckResult", str "Pass", 7,
   [⟨str "Category", str "Unit"⟩, ⟨str "Timing", str "Slow"⟩]⟩

end xunit

/-! ### Lemmas about the CamelCase scanner -/

namespace camelcase

lemma upperLoop_ge (ns : List GoStr) (input : GoStr) (sIdx : Nat) :
    ∀ fuel pos, pos ≤ upperLoop ns input sIdx fuel pos := by
  intro fuel
  induction fuel with
  | zero => intro pos; simp [upperLoop]
  | succ n ih =>
    intro pos
    rw [upperLoop]
    split
    · exact Nat.le_trans (Nat.le_succ pos) (ih (pos + 1))
    · exact Nat.le_refl pos

lemma upperLoop_le (ns : List GoStr) (input : GoStr) (sIdx : Nat) :
    ∀ fuel pos, pos ≤ input.length →
      upperLoop ns input sIdx fuel pos ≤ input.length := by
  intro fuel
  induction fuel with
  | zero => intro pos h; simpa [upperLoop] using h
  | succ n ih =>
    intro pos h
    rw [upperLoop]
    split
    case isTrue hc => exact ih (pos + 1) (by omega)
    case isFalse hc => exact h

lemma upperLoop_succ_ge (ns : List GoStr) (input : GoStr) (sIdx : Nat)
    (fuel pos : Nat) (h1 : pos < input.length)
    (h2 : (isUpper (byteAt input pos) || isNoSplitWord ns input sIdx pos) = true) :
    pos + 1 ≤ upperLoop ns input sIdx (fuel + 1) pos := by
  rw [upperLoop, if_pos ⟨h1, h2⟩]
  exact upperLoop_ge ns input sIdx fuel (pos + 1)

lemma lowerLoop_ge (ns : List GoStr) (input : GoStr) (sIdx : Nat) :
    ∀ fuel pos, pos ≤ lowerLoop ns input sIdx fuel pos := by
  intro fuel
  induction fuel with
  | zero => intro pos; simp [lowerLoop]
  | succ n ih =>
    intro pos
    rw [lowerLoop]
    split
    · exact Nat.le_trans (Nat.le_succ pos) (ih (pos + 1))
    · exact Nat.le_refl pos

lemma lowerLoop_le (ns : List GoStr) (input : GoStr) (sIdx : Nat) :
    ∀ fuel pos, pos ≤ input.length →
      lowerLoop ns input sIdx fuel pos ≤ input.length := by
  intro fuel
  induction fuel with
  | zero => intro pos h; simpa [lowerLoop] using h
  | succ n ih =>
    intro pos h
    rw [lowerLoop]
    split
    case isTrue hc => exact ih (pos + 1) (by omega)
    case isFalse hc => exact h

lemma upperEnd_ge (ns : List GoStr) (input : GoStr) (sIdx : Nat)
    (h1 : sIdx + 1 < input.length)
    (h2 : isUpper (byteAt input (sIdx + 1)) = true) :
    sIdx + 1 ≤ upperEnd ns input sIdx := by
  have hstep : sIdx + 1 + 1 ≤ upperLoop ns input sIdx (input.length + 1) (sIdx + 1) :=
    upperLoop_succ_ge ns input sIdx input.length (sIdx + 1) h1 (by simp [h2])
  rw [upperEnd]
  split <;> omega

lemma upperEnd_le (ns : List GoStr) (input : GoStr) (sIdx : Nat)
    (h : sIdx + 1 ≤ input.length) : upperEnd ns input sIdx ≤ input.length := by
  have hle : upperLoop ns input sIdx (input.length + 1) (sIdx + 1) ≤ input.length :=
    upperLoop_le ns input sIdx (input.length + 1) (sIdx + 1) h
  rw [upperEnd]
  split <;> omega

lemma lowerEnd_ge (ns : List GoStr) (input : GoStr) (sIdx : Nat) :
    sIdx + 1 ≤ lowerEnd ns input sIdx :=
  lowerLoop_ge ns input sIdx (input.length + 1) (sIdx + 1)

lemma lowerEnd_le (ns : List GoStr) (input : GoStr) (sIdx : Nat)
    (h : sIdx + 1 ≤ input.length) : lowerEnd ns input sIdx ≤ input.length :=
  lowerLoop_le ns input sIdx (input.length + 1) (sIdx + 1) h

lemma readWord_fst (ns : List GoStr) (input : GoStr) (pos : Nat) :
    (readWord ns input pos).1 = substr input pos ((readWord ns input pos).2) := by
  rw [readWord]
  split <;> rfl

lemma readWord_snd_gt (ns : List GoStr) (input : GoStr) (pos : Nat)
    (_h : pos < input.length) : pos < (readWord ns input pos).2 := by
  rw [readWord]
  split
  case isTrue hc => have := upperEnd_ge ns input pos hc.1 hc.2; omega
  case isFalse hc => have := lowerEnd_ge ns input pos; omega

lemma readWord_snd_le (ns : List GoStr) (input : GoStr) (pos : Nat)
    (h : pos < input.length) : (readWord ns input pos).2 ≤ input.length := by
  rw [readWord]
  split
  case isTrue hc => exact upperEnd_le ns input pos (by omega)
  case isFalse hc => exact lowerEnd_le ns input pos (by omega)

lemma substr_append_drop (s : GoStr) (a b : Nat) (hab : a ≤ b)
    (hb : b ≤ s.length) : substr s a b ++ s.drop b = s.drop a := by
  unfold substr
  conv_rhs => rw [← List.take_append_drop b s]
  rw [List.drop_append_eq_append_drop, List.length_take,
    Nat.min_eq_left hb, Nat.sub_eq_zero_of_le hab, List.drop_zero]

lemma substr_length (s : GoStr) (a b : Nat) (hb : b ≤ s.length) :
    (substr s a b).length = b - a := by
  simp only [substr, List.length_drop, List.length_take]
  omega

lemma splitLoop_flatten (ns : List GoStr) (input : GoStr) :
    ∀ fuel pos, pos ≤ input.length → input.length - pos ≤ fuel →
      (splitLoop ns input fuel pos).flatten = input.drop pos := by
  intro fuel
  induction fuel with
  | zero =>
    intro pos h1 h2
    have hp : pos = input.length := by omega
    subst hp
    simp [splitLoop]
  | succ n ih =>
    intro pos h1 h2
    rw [splitLoop]
    split
    case isTrue hlt =>
      simp only [List.flatten_cons]
      have hgt := readWord_snd_gt ns input pos hlt
      have hle := readWord_snd_le ns input pos hlt
      rw [readWord_fst, ih _ hle (by omega)]
      exact substr_append_drop input pos _ (by omega) hle
    case isFalse hge =>
      have hp : pos = input.length := by omega
      subst hp
      simp [splitLoop]

lemma splitLoop_ne_nil (ns : List GoStr) (input : GoStr) :
    ∀ fuel pos, pos ≤ input.length →
      ∀ w ∈ splitLoop ns input fuel pos, w ≠ [] := by
  intro fuel
  induction fuel with
  | zero => intro pos _ w hw; simp [splitLoop] at hw
  | succ n ih =>
    intro pos h w hw
    rw [splitLoop] at hw
    split at hw
    case isTrue hlt =>
      simp only [List.mem_cons] at hw
      rcases hw with hw | hw
      · subst hw
        have hgt := readWord_snd_gt ns input pos hlt
        have hle := readWord_snd_le ns input pos hlt
        rw [readWord_fst]
        have hlen : (substr input pos ((readWord ns input pos).2)).length =
            (readWord ns input pos).2 - pos := substr_length input pos _ hle
        intro hnil
        rw [hnil] at hlen
        simp at hlen
        omega
      · exact ih _ (readWord_snd_le ns input pos hlt) w hw
    case isFalse hge => simp at hw

lemma upperLoopC_eq (ns : List GoStr) (input : GoStr) (sIdx : Nat) :
    ∀ fuel pos, sIdx ≤ pos → pos ≤ input.length → input.length - pos < fuel →
      upperLoopC ns input sIdx fuel pos = some (upperLoop ns input sIdx fuel pos) := by
  intro fuel
  induction fuel with
  | zero => intro pos h1 h2 h3; omega
  | succ n ih =>
    intro pos h1 h2 h3
    by_cases hlt : pos < input.length
    · have hsub : substrC input sIdx (pos + 1) =
          some (substr input sIdx (pos + 1)) := by
        rw [substrC, if_pos ⟨by omega, by omega⟩]
      have hrr : readRuneC input pos = some (pos + 1) := by
        rw [readRuneC, if_neg (by omega), if_pos hlt]
      rw [upperLoopC, upperLoop]
      simp only [hlt, if_true, true_and, hsub, hrr, isNoSplitWord]
      by_cases hb : (isUpper (byteAt input pos) ||
          ns.any (fun e => (substr input sIdx (pos + 1)).isPrefixOf e)) = true
      · simp only [hb, if_true]
        exact ih (pos + 1) (by omega) (by omega) (by omega)
      · simp only [Bool.not_eq_true] at hb
        simp [hb]
    · rw [upperLoopC, upperLoop, if_neg hlt, if_neg (by intro hc; exact hlt hc.1)]

lemma lowerLoopC_eq (ns : List GoStr) (input : GoStr) (sIdx : Nat) :
    ∀ fuel pos, sIdx ≤ pos → pos ≤ input.length → input.length - pos < fuel →
      lowerLoopC ns input sIdx fuel pos = some (lowerLoop ns input sIdx fuel pos) := by
  intro fuel
  induction fuel with
  | zero => intro pos h1 h2 h3; omega
  | succ n ih =>
    intro pos h1 h2 h3
    by_cases hlt : pos < input.length
    · have hsub : substrC input sIdx (pos + 1) =
          some (substr input sIdx (pos + 1)) := by
        rw [substrC, if_pos ⟨by omega, by omega⟩]
      have hrr : readRuneC input pos = some (pos + 1) := by
        rw [readRuneC, if_neg (by omega), if_pos hlt]
      rw [lowerLoopC, lowerLoop]
      simp only [hlt, if_true, true_and, hsub, hrr, isNoSplitWord]
      by_cases hb : (!(isUpper (byteAt input pos)) ||
          ns.any (fun e => (substr input sIdx (pos + 1)).isPrefixOf e)) = true
      · simp only [hb, if_true]
        exact ih (pos + 1) (by omega) (by omega) (by omega)
      · simp only [Bool.not_eq_true] at hb
        simp [hb]
    · rw [lowerLoopC, lowerLoop, if_neg hlt, if_neg (by intro hc; exact hlt hc.1)]

lemma upperEndC_eq (ns : List GoStr) (input : GoStr) (sIdx : Nat)
    (h : sIdx + 1 ≤ input.length) :
    upperEndC ns input sIdx = some (upperEnd ns input sIdx) := by
  rw [upperEndC, upperEnd,
    upperLoopC_eq ns input sIdx (input.length + 1) (sIdx + 1) (by omega) h (by omega)]

lemma lowerEndC_eq (ns : List GoStr) (input : GoStr) (sIdx : Nat)
    (h : sIdx + 1 ≤ input.length) :
    lowerEndC ns input sIdx = some (lowerEnd ns input sIdx) := by
  rw [lowerEndC, lowerEnd,
    lowerLoopC_eq ns input sIdx (input.length + 1) (sIdx + 1) (by omega) h (by omega)]

lemma readWordC_eq (ns : List GoStr) (input : GoStr) (pos : Nat)
    (h : pos < input.length) :
    readWordC ns input pos = some (readWord ns input pos) := by
  have hrr : readRuneC input pos = some (pos + 1) := by
    rw [readRuneC, if_neg (by omega), if_pos h]
  rw [readWordC, hrr]
  dsimp only
  rw [readWord]
  by_cases hc : pos + 1 < input.length ∧ isUpper (byteAt input (pos + 1)) = true
  · have hge := upperEnd_ge ns input pos hc.1 hc.2
    have hle := upperEnd_le ns input pos (by omega)
    rw [if_pos hc, if_pos hc, upperEndC_eq ns input pos (by omega)]
    dsimp only
    rw [substrC, if_pos ⟨by omega, hle⟩]
  · have hge := lowerEnd_ge ns input pos
    have hle := lowerEnd_le ns input pos (by omega)
    rw [if_neg hc, if_neg hc, lowerEndC_eq ns input pos (by omega)]
    dsimp only
    rw [substrC, if_pos ⟨by omega, hle⟩]

lemma splitLoopC_eq (ns : List GoStr) (input : GoStr) :
    ∀ fuelC fuel pos, pos ≤ input.length → input.length - pos < fuelC →
      input.length - pos ≤ fuel →
      splitLoopC ns input fuelC pos = some (splitLoop ns input fuel pos) := by
  intro fuelC
  induction fuelC with
  | zero => intro fuel pos h1 h2 h3; omega
  | succ n ih =>
    intro fuel pos h1 h2 h3
    by_cases hlt : pos < input.length
    · have hgt := readWord_snd_gt ns input pos hlt
      have hle := readWord_snd_le ns input pos hlt
      cases fuel with
      | zero => omega
      | succ m =>
        rw [splitLoopC, splitLoop, if_pos hlt, if_pos hlt,
          readWordC_eq ns input pos hlt]
        dsimp only
        rw [ih m ((readWord ns input pos).2) hle (by omega) (by omega)]
    · rw [splitLoopC, if_neg hlt]
      cases fuel with
      | zero => rw [splitLoop]
      | succ m => rw [splitLoop, if_neg hlt]

lemma SplitC_eq_Split (ns : List GoStr) (v : GoStr) :
    SplitC ns v = some (Split ns v) := by
  rw [SplitC, Split]
  split
  · rfl
  · exact splitLoopC_eq ns v (v.length + 1) v.length 0 (by omega) (by omega) (by omega)

end camelcase
/-! ### Claim theorems (scanner) -/

/-- C1: For the qualified name
`NS1.Class.SubClass.TestClass+Method+Scenario+SubScenario.Result` with no
declared traits, the name decoder produces friendly name `Result` and group
path `[Test class, Method, Scenario, Sub scenario]` (each path element
CamelCase-split and sentence-cased), under the empty `NoSplit` configuration
(the decoder never consults `NoTransform`). -/
theorem c1_name_decoder_scenario :
    xunit.friendlyName []
        ⟨str "NS1.Class.SubClass.TestClass+Method+Scenario+SubScenario.Result",
         str "Pass", 0, []⟩ = str "Result" ∧
    xunit.testGroups []
        ⟨str "NS1.Class.SubClass.TestClass+Method+Scenario+SubScenario.Result",
         str "Pass", 0, []⟩ =
      [str "Test class", str "Method", str "Scenario", str "Sub scenario"] :=
  ⟨by decide, by decide⟩

/-- C3: For every valid UTF-8 string `s`, concatenating the segments returned
by `camelcase.Split` in order, with no separator, reproduces `s` exactly; and
when `s` is non-empty, every returned segment is non-empty.  Together these
make the segments consecutive, non-overlapping slices of `s`: segment `i`
occupies exactly the bytes between the total length of the segments before it
and that total plus its own length. -/
theorem c3_split_concat_identity (ns : List GoStr) (s : GoStr)
    (hv : camelcase.validUtf8 s = true) :
    (camelcase.Split ns s).flatten = s ∧
      (s ≠ [] → ∀ w ∈ camelcase.Split ns s, w ≠ []) := by
  constructor
  · rw [camelcase.Split]
    split
    case isTrue hc => simp
    case isFalse hc =>
      simpa using camelcase.splitLoop_flatten ns s s.length 0 (by omega) (by omega)
  · intro hne w hw
    rw [camelcase.Split] at hw
    split at hw
    case isTrue hc =>
      simp only [List.mem_singleton] at hw
      subst hw
      exact hne
    case isFalse hc =>
      exact camelcase.splitLoop_ne_nil ns s s.length 0 (by omega) w hw

/-- Witness for C3 at `s = "FullyQualifiedName"`, `NoSplit = []`. -/
theorem c3_witness :
    camelcase.validUtf8 (str "FullyQualifiedName") = true ∧
    (camelcase.Split [] (str "FullyQualifiedName")).flatten =
      str "FullyQualifiedName" ∧
    (str "FullyQualifiedName" ≠ [] ∧
      ∀ w ∈ camelcase.Split [] (str "FullyQualifiedName"), w ≠ []) :=
  ⟨by decide, (c3_split_concat_identity [] _ (by decide)).1, by decide,
    fun w hw => (c3_split_concat_identity [] _ (by decide)).2 (by decide) w hw⟩

/-- C7: When `NoSplit` contains the literal `HostBuilder`,
`camelcase.Split "XHostBuilderY"` returns a segmentation in which
`HostBuilder` appears intact as one segment, despite its internal uppercase
letter. -/
theorem c7_nosplit_keeps_hostbuilder_intact :
    camelcase.Split [str "HostBuilder"] (str "XHostBuilderY") =
      [str "X", str "HostBuilder", str "Y"] ∧
    str "HostBuilder" ∈ camelcase.Split [str "HostBuilder"] (str "XHostBuilderY") :=
  ⟨by decide, by decide⟩

/-- C9: `camelcase.Split` terminates and returns normally for every input:
if the input is empty or not valid UTF-8 it returns the one-element slice
holding the input unchanged; the checked model — in which every byte access
and slice bound is verified (in particular `readRune`'s in-bounds read, whose
out-of-range branch would be reached exactly at `pos = len`) and the
iteration budget is explicit — computes `some` of the total model's answer,
so no access is out of bounds and the loops converge within their budget; and
every `readWord` call strictly advances the reader position. -/
theorem c9_split_total_and_safe (ns : List GoStr) (v : GoStr) :
    ((camelcase.validUtf8 v = false ∨ v = []) → camelcase.Split ns v = [v]) ∧
    camelcase.SplitC ns v = some (camelcase.Split ns v) ∧
    (∀ pos, pos < v.length → pos < (camelcase.readWord ns v pos).2) := by
  refine ⟨?_, camelcase.SplitC_eq_Split ns v,
    fun pos h => camelcase.readWord_snd_gt ns v pos h⟩
  intro hdeg
  rw [camelcase.Split]
  rcases hdeg with hv | hv
  · rw [if_pos (by simp [hv])]
  · subst hv
    rw [if_pos (by simp)]

/-- Witness for C9 at the invalid byte sequence `[226, 226, 161]`
(a malformed three-byte UTF-8 sequence) and `NoSplit = []`. -/
theorem c9_witness :
    camelcase.Split [] [226, 226, 161] = [[226, 226, 161]] ∧
    camelcase.SplitC [] [226, 226, 161] =
      some (camelcase.Split [] [226, 226, 161]) ∧
    0 < (camelcase.readWord [] [226, 226, 161] 0).2 :=
  ⟨(c9_split_total_and_safe [] [226, 226, 161]).1 (Or.inl (by decide)),
    (c9_split_total_and_safe [] [226, 226, 161]).2.1,
    (c9_split_total_and_safe [] [226, 226, 161]).2.2 0 (by decide)⟩


/-! ### Lemmas and claims for the sentence formatter and the decoder -/

namespace xunit

lemma friendlyWords_eq_toSentenceWords_nil (ws : List GoStr) :
    friendlyWords ws = words.toSentenceWords [] ws := by
  cases ws with
  | nil => rfl
  | cons w rest => simp [friendlyWords, words.toSentenceWords]

end xunit

/-- C4 fails as stated: with `NoSplit = NoTransform = [DBSyncer]` (the
deployed configuration protects exactly such acronym words in both sets) and
the structured name `Test.RunDBSyncer`, the decoder's inline formatting
lower-cases the protected word while `words.ToSentence` emits it verbatim, so
the two disagree. -/
theorem c4_counterexample :
    xunit.friendlyName [str "DBSyncer"]
        ⟨str "Test.RunDBSyncer", str "Pass", 0, []⟩ = str "Run dbsyncer" ∧
    words.ToSentence [str "DBSyncer"]
        (camelcase.Split [str "DBSyncer"]
          (xunit.afterLast 46 (str "Test.RunDBSyncer"))) = str "Run DBSyncer" ∧
    xunit.friendlyName [str "DBSyncer"]
        ⟨str "Test.RunDBSyncer", str "Pass", 0, []⟩ ≠
      words.ToSentence [str "DBSyncer"]
        (camelcase.Split [str "DBSyncer"]
          (xunit.afterLast 46 (str "Test.RunDBSyncer"))) :=
  ⟨by decide, by decide, by decide⟩

/-- C4 (amended): For every structured qualified name (no space character),
the decoder's friendly name equals `words.ToSentence` applied to
`camelcase.Split` of the substring after the last `.` — provided the
`NoTransform` set is empty.  (The decoder lower-cases every non-first word
inline and never consults `NoTransform`, so with a non-empty `NoTransform`
set the composition differs, as `c4_counterexample` shows.) -/
theorem c4_friendly_name_decomposition (ns : List GoStr) (t : xunit.GoTest)
    (h : xunit.hasDisplayName t = false) :
    xunit.friendlyName ns t =
      words.ToSentence [] (camelcase.Split ns (xunit.afterLast 46 t.name)) := by
  rw [xunit.friendlyName, if_neg (by simp [h]), words.ToSentence,
    xunit.friendlyWords_eq_toSentenceWords_nil]

/-- Witness for the amended C4 at `Test.RunDBSyncer` with empty
configuration sets. -/
theorem c4_witness :
    xunit.hasDisplayName ⟨str "Test.RunDBSyncer", str "Pass", 0, []⟩ = false ∧
    xunit.friendlyName [] ⟨str "Test.RunDBSyncer", str "Pass", 0, []⟩ =
      words.ToSentence []
        (camelcase.Split [] (xunit.afterLast 46 (str "Test.RunDBSyncer"))) :=
  ⟨by decide,
    c4_friendly_name_decomposition [] ⟨str "Test.RunDBSyncer", str "Pass", 0, []⟩
      (by decide)⟩

/-- C8: `xunit.Load` surfaces an error only when the XML cannot be decoded;
the decode error value is propagated unchanged and a decode failure yields
the zero `TestRun` with no partial result; conversely, successfully decoded
input never yields an error. -/
theorem c8_load_error_boundary (ns : List GoStr) :
    (∀ e, xunit.Load ns (.decodeErr e) = (xunit.zeroTestRun, some e)) ∧
    (∀ r, xunit.Load ns (.ok r) = (xunit.readResult ns r, none)) ∧
    (∀ o, (xunit.Load ns o).2.isSome = true →
      ∃ e, o = .decodeErr e ∧ (xunit.Load ns o).2 = some e) := by
  refine ⟨fun e => rfl, fun r => rfl, fun o h => ?_⟩
  cases o with
  | readErr => simp [xunit.Load, xunit.unmarshal] at h
  | decodeErr e => exact ⟨e, rfl, rfl⟩
  | ok r => simp [xunit.Load, xunit.unmarshal] at h

/-- Witness for C8 at a concrete decode error and a concrete decoded value. -/
theorem c8_witness :
    xunit.Load [] (.decodeErr (str "unexpected EOF")) =
      (xunit.zeroTestRun, some (str "unexpected EOF")) ∧
    xunit.Load [] (.ok xunit.zeroResult) =
      (xunit.readResult [] xunit.zeroResult, none) ∧
    (∃ e, (xunit.ReadOutcome.decodeErr (str "unexpected EOF")) = .decodeErr e ∧
      (xunit.Load [] (.decodeErr (str "unexpected EOF"))).2 = some e) :=
  ⟨(c8_load_error_boundary []).1 (str "unexpected EOF"),
    (c8_load_error_boundary []).2.1 xunit.zeroResult,
    (c8_load_error_boundary []).2.2 (.decodeErr (str "unexpected EOF")) (by decide)⟩

/-- C10: When reading bytes from the supplied reader fails before any XML
decoding, `unmarshal` skips the decode and returns its zero-valued `result`
with a nil error, so `Load` returns the zero `TestRun` (which coincides with
`readResult` of the zero `result`) and a nil error: the read failure is
silently discarded, not surfaced. -/
theorem c10_read_failure_silently_discarded (ns : List GoStr) :
    xunit.unmarshal .readErr = (xunit.zeroResult, none) ∧
    xunit.Load ns .readErr = (xunit.zeroTestRun, none) ∧
    xunit.readResult ns xunit.zeroResult = xunit.zeroTestRun :=
  ⟨rfl, rfl, rfl⟩


/-! ### Lemmas about the hierarchy builder -/

namespace xunit

lemma insertPath_name (g : TestGroup) (path : List GoStr) (tc : TestCase) :
    (insertPath g path tc).name = g.name := by
  cases g
  cases path <;> rfl

lemma insertPath_nil_tests (g : TestGroup) (tc : TestCase) :
    (insertPath g [] tc).tests = g.tests ++ [tc] := by
  cases g
  rfl

lemma insertPath_cons_tests (g : TestGroup) (nn : GoStr) (rest : List GoStr)
    (tc : TestCase) : (insertPath g (nn :: rest) tc).tests = g.tests := by
  cases g
  rfl

lemma insertPath_cons_groups (g : TestGroup) (nn : GoStr) (rest : List GoStr)
    (tc : TestCase) :
    (insertPath g (nn :: rest) tc).groups =
      updateChild g.groups nn (fun c => insertPath c rest tc) := by
  cases g
  rfl

lemma updateChild_names (nn : GoStr) (f : TestGroup → TestGroup)
    (hf : ∀ c, (f c).name = c.name) :
    ∀ cs : List TestGroup,
      (updateChild cs nn f).map TestGroup.name =
        if nn ∈ cs.map TestGroup.name then cs.map TestGroup.name
        else cs.map TestGroup.name ++ [nn] := by
  intro cs
  induction cs with
  | nil =>
    rw [updateChild]
    have hb : (f (TestGroup.mk nn [] [])).name = nn := by rw [hf]; rfl
    simp [hb]
  | cons c cs ih =>
    rw [updateChild]
    by_cases hc : c.name = nn
    · rw [if_pos hc]
      simp [hf, hc]
    · rw [if_neg hc]
      simp only [List.map_cons, ih, List.mem_cons]
      by_cases hm : nn ∈ cs.map TestGroup.name
      · rw [if_pos hm, if_pos (Or.inr hm)]
      · rw [if_neg hm, if_neg (by push_neg; exact ⟨fun he => hc he.symm, hm⟩)]
        rfl

lemma insertPath_child_names (g : TestGroup) (nn : GoStr) (rest : List GoStr)
    (tc : TestCase) :
    ((insertPath g (nn :: rest) tc).groups).map TestGroup.name =
      if nn ∈ g.groups.map TestGroup.name then g.groups.map TestGroup.name
      else g.groups.map TestGroup.name ++ [nn] := by
  rw [insertPath_cons_groups]
  exact updateChild_names nn _ (fun c => insertPath_name c rest tc) g.groups

lemma treeNodup_mk (n : GoStr) (ts : List TestCase) (gs : List TestGroup) :
    treeNodup (.mk n ts gs) = ((gs.map TestGroup.name).Nodup && forestNodup gs) := by
  rw [treeNodup]

lemma updateChild_forestNodup (nn : GoStr) (f : TestGroup → TestGroup)
    (hf : ∀ c, treeNodup c = true → treeNodup (f c) = true) :
    ∀ cs : List TestGroup, forestNodup cs = true →
      forestNodup (updateChild cs nn f) = true := by
  intro cs
  induction cs with
  | nil =>
    intro _
    rw [updateChild, forestNodup, forestNodup]
    simp only [Bool.and_true]
    exact hf _ (by rw [treeNodup_mk]; simp [forestNodup])
  | cons c cs ih =>
    intro h
    rw [forestNodup, Bool.and_eq_true] at h
    rw [updateChild]
    by_cases hc : c.name = nn
    · rw [if_pos hc, forestNodup, Bool.and_eq_true]
      exact ⟨hf c h.1, h.2⟩
    · rw [if_neg hc, forestNodup, Bool.and_eq_true]
      exact ⟨h.1, ih h.2⟩

lemma insertPath_treeNodup :
    ∀ (path : List GoStr) (g : TestGroup) (tc : TestCase),
      treeNodup g = true → treeNodup (insertPath g path tc) = true := by
  intro path
  induction path with
  | nil =>
    intro g tc h
    cases g with
    | mk n ts gs => rw [insertPath, treeNodup_mk]; rwa [treeNodup_mk] at h
  | cons nn rest ih =>
    intro g tc h
    cases g with
    | mk n ts gs =>
      rw [treeNodup_mk, Bool.and_eq_true] at h
      rw [insertPath, treeNodup_mk, Bool.and_eq_true]
      constructor
      · have hn := updateChild_names nn (fun c => insertPath c rest tc)
          (fun c => insertPath_name c rest tc) gs
        rw [hn]
        by_cases hm : nn ∈ gs.map TestGroup.name
        · rw [if_pos hm]; exact h.1
        · rw [if_neg hm]
          simp only [decide_eq_true_eq] at h ⊢
          simp [List.nodup_append, hm, h.1]
      · exact updateChild_forestNodup nn _ (fun c hc => ih c tc hc) gs h.2

lemma groupTestsOne_name :
    ∀ (tcs : List TestCase) (g : TestGroup),
      (groupTestsOne g tcs).name = g.name := by
  intro tcs
  induction tcs with
  | nil => intro g; rfl
  | cons tc rest ih =>
    intro g
    have hstep : groupTestsOne g (tc :: rest) =
        groupTestsOne (insertPath g tc.groups (strip tc)) rest := rfl
    rw [hstep, ih, insertPath_name]

lemma groupTestsOne_treeNodup :
    ∀ (tcs : List TestCase) (g : TestGroup),
      treeNodup g = true → treeNodup (groupTestsOne g tcs) = true := by
  intro tcs
  induction tcs with
  | nil => intro g h; exact h
  | cons tc rest ih =>
    intro g h
    have hstep : groupTestsOne g (tc :: rest) =
        groupTestsOne (insertPath g tc.groups (strip tc)) rest := rfl
    rw [hstep]
    exact ih _ (insertPath_treeNodup tc.groups g (strip tc) h)

lemma groupTestsOne_tests :
    ∀ (tcs : List TestCase) (g : TestGroup),
      (groupTestsOne g tcs).tests =
        g.tests ++ (tcs.filter (fun tc => tc.groups.isEmpty)).map strip := by
  intro tcs
  induction tcs with
  | nil => intro g; simp [groupTestsOne]
  | cons tc rest ih =>
    intro g
    have hstep : groupTestsOne g (tc :: rest) =
        groupTestsOne (insertPath g tc.groups (strip tc)) rest := rfl
    rw [hstep, ih]
    cases hg : tc.groups with
    | nil =>
      rw [insertPath_nil_tests]
      simp [List.filter_cons, hg, List.append_assoc]
    | cons nn pr =>
      rw [insertPath_cons_tests]
      simp [List.filter_cons, hg]

end xunit


namespace xunit

lemma countTC_mk (n : GoStr) (ts : List TestCase) (gs : List TestGroup)
    (x : TestCase) : countTC (.mk n ts gs) x = ts.count x + countForest gs x := by
  rw [countTC]

lemma countForest_updateChild (nn : GoStr) (f : TestGroup → TestGroup)
    (x : TestCase) (d : Nat)
    (hf : ∀ c, countTC (f c) x = countTC c x + d) :
    ∀ cs : List TestGroup,
      countForest (updateChild cs nn f) x = countForest cs x + d := by
  intro cs
  induction cs with
  | nil =>
    simp only [updateChild, countForest, hf, countTC_mk, List.count_nil]
    omega
  | cons c cs ih =>
    rw [updateChild]
    by_cases hc : c.name = nn
    · rw [if_pos hc]
      simp only [countForest, hf]
      omega
    · rw [if_neg hc]
      simp only [countForest, ih]
      omega

lemma countTC_insertPath :
    ∀ (path : List GoStr) (g : TestGroup) (tc x : TestCase),
      countTC (insertPath g path tc) x =
        countTC g x + (if tc = x then 1 else 0) := by
  intro path
  induction path with
  | nil =>
    intro g tc x
    cases g with
    | mk n ts gs =>
      rw [insertPath, countTC_mk, countTC_mk, List.count_append]
      have h1 : List.count x [tc] = if tc = x then 1 else 0 := by
        by_cases htc : tc = x
        · subst htc; simp
        · simp [List.count_singleton', htc]
      rw [h1]
      omega
  | cons nn rest ih =>
    intro g tc x
    cases g with
    | mk n ts gs =>
      rw [insertPath, countTC_mk, countTC_mk,
        countForest_updateChild nn _ x (if tc = x then 1 else 0)
          (fun c => ih c tc x) gs]
      omega

end xunit


namespace xunit

lemma countTC_groupTestsOne :
    ∀ (tcs : List TestCase) (g : TestGroup) (x : TestCase),
      countTC (groupTestsOne g tcs) x = countTC g x + (tcs.map strip).count x := by
  intro tcs
  induction tcs with
  | nil => intro g x; simp [groupTestsOne]
  | cons tc rest ih =>
    intro g x
    have hstep : groupTestsOne g (tc :: rest) =
        groupTestsOne (insertPath g tc.groups (strip tc)) rest := rfl
    rw [hstep, ih, countTC_insertPath, List.map_cons, List.count_cons]
    have h1 : (if (strip tc == x) = true then 1 else 0) =
        (if strip tc = x then 1 else 0) := by
      by_cases hx : strip tc = x <;> simp [hx]
    rw [h1]
    omega

end xunit

namespace xunit

lemma amInsert_keys :
    ∀ (m : List (GoStr × List TestCase)) (k : GoStr) (v : TestCase),
      (amInsert m k v).map Prod.fst =
        if k ∈ m.map Prod.fst then m.map Prod.fst
        else m.map Prod.fst ++ [k] := by
  intro m
  induction m with
  | nil => intro k v; simp [amInsert]
  | cons e rest ih =>
    intro k v
    obtain ⟨a, vs⟩ := e
    rw [amInsert]
    by_cases ha : a = k
    · rw [if_pos ha]
      simp [ha]
    · rw [if_neg ha]
      simp only [List.map_cons, ih, List.mem_cons]
      by_cases hm : k ∈ rest.map Prod.fst
      · rw [if_pos hm, if_pos (Or.inr hm)]
      · rw [if_neg hm, if_neg (by push_neg; exact ⟨fun he => ha he.symm, hm⟩)]
        rfl

lemma lookupAM_amInsert :
    ∀ (m : List (GoStr × List TestCase)) (k : GoStr) (v : TestCase) (q : GoStr),
      lookupAM (amInsert m k v) q =
        if q = k then lookupAM m q ++ [v] else lookupAM m q := by
  intro m
  induction m with
  | nil =>
    intro k v q
    by_cases hq : q = k
    · subst hq; simp [amInsert, lookupAM]
    · have hq2 : ¬k = q := fun h => hq h.symm
      simp [amInsert, lookupAM, hq, hq2]
  | cons e rest ih =>
    intro k v q
    obtain ⟨a, vs⟩ := e
    rw [amInsert]
    by_cases ha : a = k
    · subst ha
      rw [if_pos rfl]
      by_cases hq : q = a
      · subst hq; simp [lookupAM]
      · have hq2 : ¬a = q := fun h => hq h.symm
        simp [lookupAM, hq, hq2]
    · rw [if_neg ha]
      by_cases haq : a = q
      · have hqk : ¬q = k := fun h => ha (haq.trans h)
        simp [lookupAM, haq, hqk]
      · simp [lookupAM, haq, ih k v q]

end xunit

namespace xunit

lemma foldAM_keys :
    ∀ (ps : List (GoStr × TestCase)) (m : List (GoStr × List TestCase)),
      (foldAM m ps).map Prod.fst =
        m.map Prod.fst ++ dedupNew (m.map Prod.fst) (ps.map Prod.fst) := by
  intro ps
  induction ps with
  | nil => intro m; simp [foldAM, dedupNew]
  | cons p ps ih =>
    intro m
    obtain ⟨k, v⟩ := p
    have hstep : foldAM m ((k, v) :: ps) = foldAM (amInsert m k v) ps := rfl
    rw [hstep, ih, amInsert_keys, List.map_cons, dedupNew]
    by_cases hm : k ∈ m.map Prod.fst
    · rw [if_pos hm, if_pos hm]
    · rw [if_neg hm, if_neg hm, List.append_assoc]
      rfl

lemma foldAM_lookup :
    ∀ (ps : List (GoStr × TestCase)) (m : List (GoStr × List TestCase))
      (k : GoStr),
      lookupAM (foldAM m ps) k =
        lookupAM m k ++ (ps.filter (fun p => p.1 == k)).map Prod.snd := by
  intro ps
  induction ps with
  | nil => intro m k; simp [foldAM]
  | cons p ps ih =>
    intro m k
    obtain ⟨a, v⟩ := p
    have hstep : foldAM m ((a, v) :: ps) = foldAM (amInsert m a v) ps := rfl
    rw [hstep, ih, lookupAM_amInsert, List.filter_cons]
    by_cases hk : k = a
    · subst hk
      simp
    · have hk2 : ¬a = k := fun h => hk h.symm
      simp [hk, hk2]

lemma amInsert_notMem :
    ∀ (m : List (GoStr × List TestCase)) (k : GoStr) (v : TestCase),
      k ∉ m.map Prod.fst → amInsert m k v = m ++ [(k, [v])] := by
  intro m
  induction m with
  | nil => intro k v _; rfl
  | cons e rest ih =>
    intro k v hk
    obtain ⟨a, vs⟩ := e
    simp only [List.map_cons, List.mem_cons] at hk
    push_neg at hk
    rw [amInsert, if_neg (fun h => hk.1 h.symm), ih k v hk.2]
    rfl

lemma foldAM_distinct (tc : TestCase) :
    ∀ (L : List GoStr) (m : List (GoStr × List TestCase)),
      L.Nodup → (∀ l ∈ L, l ∉ m.map Prod.fst) →
      foldAM m (L.map (fun l => (l, tc))) = m ++ L.map (fun l => (l, [tc])) := by
  intro L
  induction L with
  | nil => intro m _ _; simp [foldAM]
  | cons a L ih =>
    intro m hnd hm
    rw [List.map_cons]
    have hstep : foldAM m ((a, tc) :: L.map (fun l => (l, tc))) =
        foldAM (amInsert m a tc) (L.map (fun l => (l, tc))) := rfl
    rw [hstep, amInsert_notMem m a tc (hm a (by simp))]
    rw [List.nodup_cons] at hnd
    rw [ih (m ++ [(a, [tc])]) hnd.2 ?hcond]
    · simp
    case hcond =>
      intro l hl
      simp only [List.map_append, List.mem_append]
      push_neg
      refine ⟨hm l (by simp [hl]), ?_⟩
      simp only [List.map_cons, List.map_nil, List.mem_singleton]
      intro he
      exact absurd (he ▸ hl) hnd.1

end xunit

namespace xunit

lemma foldAM_append (m : List (GoStr × List TestCase))
    (xs ys : List (GoStr × TestCase)) :
    foldAM m (xs ++ ys) = foldAM (foldAM m xs) ys := by
  simp [foldAM, List.foldl_append]

lemma traitFold_eq (tc : TestCase) :
    ∀ (trs : List Trait) (m : List (GoStr × List TestCase)),
      trs.foldl (fun m2 tr => amInsert m2 (traitFriendlyName tr) tc) m =
        foldAM m (trs.map (fun tr => (traitFriendlyName tr, tc))) := by
  intro trs
  induction trs with
  | nil => intro m; rfl
  | cons tr trs ih =>
    intro m
    rw [List.foldl_cons, List.map_cons]
    exact ih (amInsert m (traitFriendlyName tr) tc)

lemma recordTest_eq (ns : List GoStr) (m : List (GoStr × List TestCase))
    (t : GoTest) : recordTest ns m t = foldAM m (testPairs ns t) := by
  simp only [recordTest, testPairs, testLabels]
  by_cases he : t.traits.isEmpty
  · have ht : t.traits = [] := by
      cases htr : t.traits with
      | nil => rfl
      | cons a l => rw [htr] at he; simp at he
    rw [ht]
    rfl
  · have he2 : t.traits.isEmpty = false := by
      cases hb : t.traits.isEmpty
      · rfl
      · exact absurd hb he
    simp only [he2, Bool.false_eq_true, if_false, List.map_map]
    rw [traitFold_eq]
    rfl

lemma testsFold_eq (ns : List GoStr) :
    ∀ (ts : List GoTest) (m : List (GoStr × List TestCase)),
      ts.foldl (recordTest ns) m = foldAM m (ts.flatMap (testPairs ns)) := by
  intro ts
  induction ts with
  | nil => intro m; rfl
  | cons t ts ih =>
    intro m
    rw [List.foldl_cons, ih, recordTest_eq, List.flatMap_cons, foldAM_append]

lemma collsFold_eq (ns : List GoStr) :
    ∀ (cols : List Collection) (m : List (GoStr × List TestCase)),
      cols.foldl (recordCollection ns) m =
        foldAM m (cols.flatMap (fun c => c.tests.flatMap (testPairs ns))) := by
  intro cols
  induction cols with
  | nil => intro m; rfl
  | cons c cols ih =>
    intro m
    rw [List.foldl_cons, ih, List.flatMap_cons, foldAM_append, recordCollection,
      testsFold_eq]

lemma buildTestMap_eq (ns : List GoStr) (asm : GoAssembly) :
    buildTestMap ns asm = foldAM [] (allPairs ns asm) := by
  rw [buildTestMap, allPairs, collsFold_eq]

lemma allPairs_nil_of_no_tests (ns : List GoStr) (asm : GoAssembly)
    (h : hasTests asm = false) : allPairs ns asm = [] := by
  rw [hasTests] at h
  rw [allPairs]
  have h2 : ∀ c ∈ asm.collections, c.tests = [] := by
    intro c hc
    have h3 := List.any_eq_false.mp h c hc
    cases hts : c.tests with
    | nil => rfl
    | cons a l => rw [hts] at h3; simp at h3
  have h4 : ∀ c ∈ asm.collections, c.tests.flatMap (testPairs ns) = [] := by
    intro c hc
    rw [h2 c hc]
    rfl
  revert h4
  generalize asm.collections = cols
  intro h4
  induction cols with
  | nil => rfl
  | cons c cols ih =>
    rw [List.flatMap_cons, h4 c (by simp), List.nil_append]
    exact ih (fun d hd => h4 d (by simp [hd]))

end xunit

/-- C2: The builder's output ordering is a deterministic function of the
input ordering (all modelled operations are pure functions) and follows
encounter order: the root labels are the distinct (label, test) pair labels
in first-seen order, with a traitless test contributing the empty label; the
per-trait test list is the encounter-ordered sublist of the pair stream for
that label; a root's direct tests are that list's path-less records in
order; and one insertion step appends a new child label at the end of the
child list, leaves existing children in place, and appends records at the end
of a node's test list — so children sit in first-seen order and tests in
encounter order at every level. -/
theorem c2_builder_encounter_order :
    (∀ (ns : List GoStr) (asm : xunit.GoAssembly),
      (xunit.groupTests ns asm).map xunit.TestGroup.name =
        xunit.dedupFirst ((xunit.allPairs ns asm).map Prod.fst)) ∧
    (∀ (ns : List GoStr) (asm : xunit.GoAssembly) (k : GoStr),
      xunit.lookupAM (xunit.buildTestMap ns asm) k =
        ((xunit.allPairs ns asm).filter (fun p => p.1 == k)).map Prod.snd) ∧
    (∀ (ns : List GoStr) (asm : xunit.GoAssembly),
      (xunit.groupTests ns asm).map xunit.TestGroup.tests =
        (xunit.buildTestMap ns asm).map
          (fun e => (e.2.filter (fun tc => tc.groups.isEmpty)).map xunit.strip)) ∧
    (∀ (g : xunit.TestGroup) (nn : GoStr) (rest : List GoStr)
        (tc : xunit.TestCase),
      ((xunit.insertPath g (nn :: rest) tc).groups).map xunit.TestGroup.name =
        if nn ∈ g.groups.map xunit.TestGroup.name then
          g.groups.map xunit.TestGroup.name
        else g.groups.map xunit.TestGroup.name ++ [nn]) ∧
    (∀ (g : xunit.TestGroup) (tc : xunit.TestCase),
      (xunit.insertPath g [] tc).tests = g.tests ++ [tc]) ∧
    (∀ (g : xunit.TestGroup) (nn : GoStr) (rest : List GoStr)
        (tc : xunit.TestCase),
      (xunit.insertPath g (nn :: rest) tc).tests = g.tests) := by
  refine ⟨?_, ?_, ?_, ?_, ?_, ?_⟩
  · intro ns asm
    rw [xunit.groupTests]
    by_cases ht : xunit.hasTests asm = true
    · rw [if_neg (by simp [ht]), List.map_map]
      have hcomp : (xunit.TestGroup.name ∘
          fun e => xunit.groupTestsOne (.mk e.1 [] []) e.2) = Prod.fst := by
        funext e
        simp only [Function.comp_apply, xunit.groupTestsOne_name]
        rfl
      rw [hcomp, xunit.buildTestMap_eq, xunit.foldAM_keys]
      rfl
    · simp only [Bool.not_eq_true] at ht
      rw [if_pos (by simp [ht]), xunit.allPairs_nil_of_no_tests ns asm ht]
      rfl
  · intro ns asm k
    rw [xunit.buildTestMap_eq, xunit.foldAM_lookup]
    rfl
  · intro ns asm
    rw [xunit.groupTests]
    by_cases ht : xunit.hasTests asm = true
    · rw [if_neg (by simp [ht]), List.map_map]
      have hcomp : (xunit.TestGroup.tests ∘
          fun e => xunit.groupTestsOne (.mk e.1 [] []) e.2) =
          fun e : GoStr × List xunit.TestCase =>
            (e.2.filter (fun tc => tc.groups.isEmpty)).map xunit.strip := by
        funext e
        simp only [Function.comp_apply, xunit.groupTestsOne_tests]
        rfl
      rw [hcomp]
    · simp only [Bool.not_eq_true] at ht
      rw [if_pos (by simp [ht]), xunit.buildTestMap_eq,
        xunit.allPairs_nil_of_no_tests ns asm ht]
      rfl
  · exact fun g nn rest tc => xunit.insertPath_child_names g nn rest tc
  · exact fun g tc => xunit.insertPath_nil_tests g tc
  · exact fun g nn rest tc => xunit.insertPath_cons_tests g nn rest tc

/-- C5: In every GroupTree the Hierarchy Builder produces, within one parent
node no two children share a label (recursively, at every depth); and in the
divergence scenario, the two tests sharing `Test class / Method` produce one
shared chain with two distinct children `Scenario` and `Scenario2`. -/
theorem c5_no_duplicate_sibling_labels :
    (∀ (ns : List GoStr) (asm : xunit.GoAssembly),
      ∀ g ∈ xunit.groupTests ns asm, xunit.treeNodup g = true) ∧
    xunit.groupTests [] xunit.divergingAsm = [xunit.divergingTree] := by
  constructor
  · intro ns asm g hg
    rw [xunit.groupTests] at hg
    split at hg
    · simp at hg
    · rw [List.mem_map] at hg
      obtain ⟨e, he, rfl⟩ := hg
      apply xunit.groupTestsOne_treeNodup
      rw [xunit.treeNodup_mk]
      simp [xunit.forestNodup]
  · rfl

/-- Witness for C5 at the divergence scenario. -/
theorem c5_witness :
    xunit.divergingTree ∈ xunit.groupTests [] xunit.divergingAsm ∧
    xunit.treeNodup xunit.divergingTree = true := by
  have h : xunit.groupTests [] xunit.divergingAsm = [xunit.divergingTree] := rfl
  have hmem : xunit.divergingTree ∈ xunit.groupTests [] xunit.divergingAsm := by
    rw [h]
    exact List.mem_cons_self _ _
  exact ⟨hmem,
    c5_no_duplicate_sibling_labels.1 [] xunit.divergingAsm xunit.divergingTree hmem⟩

/-- C6 fails as stated: a test declared under two traits with the identical
name/value pair (`Cat`/`X` twice) has exactly one corresponding trait root
and is attached twice under it, not once. -/
theorem c6_counterexample :
    xunit.groupTests [] (xunit.singleTestAsm xunit.dupTraitTest) =
      [.mk (str "Cat - X")
        [⟨str "Check result", str "Pass", 7, []⟩,
         ⟨str "Check result", str "Pass", 7, []⟩] []] ∧
    ¬ (List.count (⟨str "Check result", str "Pass", 7, []⟩ : xunit.TestCase)
        (xunit.TestGroup.mk (str "Cat - X")
          [⟨str "Check result", str "Pass", 7, []⟩,
           ⟨str "Check result", str "Pass", 7, []⟩] []).tests = 1) :=
  ⟨rfl, by decide⟩

/-- C6 (amended): for a test whose declared traits have pairwise distinct
friendly labels, the builder run on an assembly holding that single test
produces one root per declared trait label — a test with zero traits is
attached under the empty-label root — and the test's record (identical Name,
Result and Time content, internal groups cleared) occurs exactly once in each
root's tree. -/
theorem c6_once_under_each_trait_root (ns : List GoStr) (t : xunit.GoTest)
    (hnd : (t.traits.map xunit.traitFriendlyName).Nodup) :
    ((xunit.groupTests ns (xunit.singleTestAsm t)).map xunit.TestGroup.name =
      xunit.testLabels t) ∧
    (∀ g ∈ xunit.groupTests ns (xunit.singleTestAsm t),
      xunit.countTC g (xunit.strip (xunit.toTestCase ns t)) = 1) := by
  have hLnd : (xunit.testLabels t).Nodup := by
    rw [xunit.testLabels]
    split
    · simp
    · exact hnd
  have hap : xunit.allPairs ns (xunit.singleTestAsm t) =
      xunit.testPairs ns t := by
    simp [xunit.allPairs, xunit.singleTestAsm]
  have hbm : xunit.buildTestMap ns (xunit.singleTestAsm t) =
      (xunit.testLabels t).map (fun l => (l, [xunit.toTestCase ns t])) := by
    rw [xunit.buildTestMap_eq, hap, xunit.testPairs,
      xunit.foldAM_distinct (xunit.toTestCase ns t) (xunit.testLabels t) [] hLnd
        (by intro l hl; simp)]
    rfl
  have hht : xunit.hasTests (xunit.singleTestAsm t) = true := rfl
  have hgt : xunit.groupTests ns (xunit.singleTestAsm t) =
      (xunit.testLabels t).map
        (fun l => xunit.groupTestsOne (.mk l [] []) [xunit.toTestCase ns t]) := by
    rw [xunit.groupTests, if_neg (by simp [hht]), hbm, List.map_map]
    rfl
  constructor
  · rw [hgt, List.map_map]
    have hcomp : (xunit.TestGroup.name ∘ fun l =>
        xunit.groupTestsOne (.mk l [] []) [xunit.toTestCase ns t]) = id := by
      funext l
      simp only [Function.comp_apply, xunit.groupTestsOne_name]
      rfl
    rw [hcomp, List.map_id]
  · intro g hg
    rw [hgt, List.mem_map] at hg
    obtain ⟨l, hl, rfl⟩ := hg
    rw [xunit.countTC_groupTestsOne, xunit.countTC_mk]
    simp [xunit.countForest]

/-- Witness for the amended C6 at a test with two distinct traits. -/
theorem c6_witness :
    ((xunit.groupTests [] (xunit.singleTestAsm xunit.twoTraitTest)).map
        xunit.TestGroup.name = xunit.testLabels xunit.twoTraitTest) ∧
    (xunit.TestGroup.mk (str "Category - Unit")
        [⟨str "Check result", str "Pass", 7, []⟩] [] ∈
      xunit.groupTests [] (xunit.singleTestAsm xunit.twoTraitTest)) ∧
    xunit.countTC
      (.mk (str "Category - Unit") [⟨str "Check result", str "Pass", 7, []⟩] [])
      (xunit.strip (xunit.toTestCase [] xunit.twoTraitTest)) = 1 := by
  have h := c6_once_under_each_trait_root [] xunit.twoTraitTest (by decide)
  have hl : xunit.groupTests [] (xunit.singleTestAsm xunit.twoTraitTest) =
      [.mk (str "Category - Unit") [⟨str "Check result", str "Pass", 7, []⟩] [],
       .mk (str "Timing - Slow") [⟨str "Check result", str "Pass", 7, []⟩] []] :=
    rfl
  have hmem : xunit.TestGroup.mk (str "Category - Unit")
      [⟨str "Check result", str "Pass", 7, []⟩] [] ∈
      xunit.groupTests [] (xunit.singleTestAsm xunit.twoTraitTest) := by
    rw [hl]
    exact List.mem_cons_self _ _
  exact ⟨h.1, hmem, h.2 _ hmem⟩
